import Mathlib

/-!
Verification of the DSSD (Diverse Subgroup Set Discovery) mining script.

The source program represents a subgroup description as a Python dict
mapping column names to required boolean values.  Dict insertion order is
observable (iteration order and the str(...) encoding used for
deduplication), so a description is embedded as an association list in
insertion order; the dicts built by the program always have pairwise
distinct keys.  A dataset is the boolean matrix the search consumes: the
ordered list of column names plus one boolean valuation per row.
Fallible operations (pandas query on an empty expression, min() of an
empty sequence) return Option, with none standing for the raised
exception.
-/

open List

/-- A subgroup description: the (column, required value) conditions of the
dict, in insertion order. -/
abbrev SubDesc := List (String × Bool)

/-- The boolean dataset: column names and one boolean valuation per row. -/
structure Dataset where
  cols : List String
  rows : List (String → Bool)

/-- A row satisfies every condition of the description (conjunction of
equality tests, as in the generated pandas query string). -/
def matchesRow (r : String → Bool) (s : SubDesc) : Bool :=
  s.all fun p => r p.1 == p.2

/-- Number of rows matching all conditions of the description: the value of
len(data.query(...)) when the conjunction is nonempty. -/
def covCount (data : Dataset) (s : SubDesc) : Nat :=
  (data.rows.filter fun r => matchesRow r s).length

/-- The coverage query exactly as the source builds it: the conditions are
joined into a pandas query string; with zero conditions the string is empty
and pandas query raises ValueError (modelled as none). -/
def dataQuery (data : Dataset) (s : SubDesc) : Option Nat :=
  if s = [] then none else some (covCount data s)

/-- Python list slicing l[:k] for an int k (a negative k counts from the
end of the list). -/
def pyTake (k : Int) (l : List α) : List α :=
  if 0 ≤ k then l.take k.toNat else l.take ((l.length : Int) + k).toNat

/-- generate_refinements from the source: for each dataset column not
already constrained, extend the dict with column=True and column=False and
keep the refinement when its coverage reaches mincov. -/
def generate_refinements (subgroup : SubDesc) (mincov : Int) (data : Dataset) : List SubDesc :=
  data.cols.flatMap fun column =>
    if subgroup.any fun p => p.1 == column then []
    else
      [true, false].filterMap fun value =>
        let refined := subgroup ++ [(column, value)]
        if mincov ≤ (covCount data refined : Int) then some refined else none

/-- min(R, key=lambda x: x[1])[1] of the source, i.e. the least quality in
R; none on the empty list, where Python min raises ValueError. -/
def minSnd : List (SubDesc × Int) → Option Int
  | [] => none
  | p :: rest =>
    some (match minSnd rest with
          | none => p.2
          | some m => min p.2 m)

/-- R.remove(min(R, key=lambda x: x[1])) of the source: Python min returns
the first element attaining the minimal quality and list.remove deletes the
first equal element, so exactly the first entry holding the minimal quality
is deleted. -/
def removeFirstWithQ (m : Int) : List (SubDesc × Int) → List (SubDesc × Int)
  | [] => []
  | p :: rest => if p.2 = m then rest else p :: removeFirstWithQ m rest

/-- update_top_k from the source.  The Python function mutates R; here the
new list is returned, and none models the ValueError raised by min() when R
is empty and the length test fails. -/
def update_top_k (R : List (SubDesc × Int)) (j : Int) (candidate : SubDesc) (quality : Int) :
    Option (List (SubDesc × Int)) :=
  if (R.length : Int) < j then some (R ++ [(candidate, quality)])
  else
    match minSnd R with
    | none => none
    | some m =>
      if m < quality then some (removeFirstWithQ m R ++ [(candidate, quality)]) else some R

/-- One step of the stable descending insertion: the new pair goes after
every held pair of greater quality and before the first pair of equal or
smaller quality, which is how a stable sort orders equal keys. -/
def insertDesc (p : SubDesc × Int) : List (SubDesc × Int) → List (SubDesc × Int)
  | [] => [p]
  | q :: rest => if p.2 < q.2 then q :: insertDesc p rest else p :: q :: rest

/-- selected.sort(key=lambda x: x[1], reverse=True) of the source: Python
list.sort is a stable sort, so its output is the unique quality-descending
reordering that keeps equal-quality entries in input order, computed here
by stable insertion. -/
def sortDesc : List (SubDesc × Int) → List (SubDesc × Int)
  | [] => []
  | p :: rest => insertDesc p (sortDesc rest)

/-- The params mapping handed to the search; the source reads only the
beam_width key, via params.get('beam_width', default). -/
structure Params where
  beam_width : Option Int

/-- subgroup_selection from the source: score every candidate, sort stably
by descending quality, slice to the configured beam width (defaulting to
the whole list when the key is absent) and drop the quality component. -/
def subgroup_selection (candidates : List SubDesc) (quality_func : SubDesc → Dataset → Int)
    (params : Params) (data : Dataset) : List SubDesc :=
  let selected := candidates.map fun c => (c, quality_func c data)
  (pyTake (params.beam_width.getD (selected.length : Int)) (sortDesc selected)).map Prod.fst

/-- The condition-removal loop of apply_dominance_pruning, iterating over
the keys of the original dict.  del temp_subgroup[condition] is modelled by
removing the entry with that key; at every reachable call the key is still
present in the working dict.  The loop breaks as soon as the working dict
is down to one condition. -/
def pruneLoop (quality_func : SubDesc → Dataset → Int) (data : Dataset) :
    List String → SubDesc → Int → SubDesc
  | [], pruned, _ => pruned
  | cond :: rest, pruned, curq =>
    let temp := pruned.filter fun p => !(p.1 == cond)
    let tq := quality_func temp data
    let next := if curq ≤ tq then (temp, tq) else (pruned, curq)
    if next.1.length == 1 then next.1
    else pruneLoop quality_func data rest next.1 next.2

/-- apply_dominance_pruning from the source: a (description, quality) tuple
comes in; a one-condition description is returned unchanged, otherwise each
original condition is tentatively dropped and the drop is kept when the
recomputed quality does not decrease. -/
def apply_dominance_pruning (subgroup : SubDesc × Int) (quality_func : SubDesc → Dataset → Int)
    (data : Dataset) : SubDesc :=
  if subgroup.1.length == 1 then subgroup.1
  else pruneLoop quality_func data (subgroup.1.map Prod.fst) subgroup.1 subgroup.2

/-- The accumulation loop of remove_duplicates, carrying the set of seen
str(subgroup) encodings.  str of a dict renders the pairs in insertion
order, so two descriptions collide exactly when they are equal as ordered
association lists; the seen set is modelled as the list of them. -/
def removeDupGo (seen : List SubDesc) : List SubDesc → List SubDesc
  | [] => []
  | s :: rest => if s ∈ seen then removeDupGo seen rest else s :: removeDupGo (s :: seen) rest

/-- remove_duplicates from the source: keep the first occurrence of every
distinct str(subgroup) encoding, preserving order. -/
def remove_duplicates (subgroups : List SubDesc) : List SubDesc :=
  removeDupGo [] subgroups

/-- The specification-side deduplication, written directly from the words
"keep the first occurrence, preserving first-seen order": the head is kept
and every later copy of it is dropped before deduplicating the rest.  It
is compared with the source's remove_duplicates. -/
def firstSeenDedup : List SubDesc → List SubDesc
  | [] => []
  | s :: rest => s :: firstSeenDedup (rest.filter fun t => !(t == s))
termination_by l => l.length
decreasing_by
  simp only [List.length_cons]
  have := List.length_filter_le (fun t => !(t == s)) rest
  omega

/-- The inner loop of dssd that feeds every candidate of one depth into
update_top_k; a raised ValueError aborts the whole loop (none). -/
def updateAll (j : Int) (qf : SubDesc → Dataset → Int) (S : Dataset) :
    List SubDesc → List (SubDesc × Int) → Option (List (SubDesc × Int))
  | [], R => some R
  | c :: cs, R =>
    match update_top_k R j c (qf c S) with
    | none => none
    | some R1 => updateAll j qf S cs R1

/-- The candidate pool of one depth: refinements of every beam member, in
beam order. -/
def dssdCands (S : Dataset) (mincov : Int) (beam : List SubDesc) : List SubDesc :=
  beam.flatMap fun b => generate_refinements b mincov S

/-- The while-loop of dssd: depth runs from 1 to maxdepth, so the loop body
executes max 0 maxdepth times; each pass generates candidates, feeds them
into the top-k list R and re-selects the beam. -/
def dssdLoop (S : Dataset) (qf : SubDesc → Dataset → Int) (j mincov : Int) (P : Params) :
    Nat → List SubDesc → List (SubDesc × Int) → Option (List (SubDesc × Int))
  | 0, _, R => some R
  | n + 1, beam, R =>
    let cands := dssdCands S mincov beam
    match updateAll j qf S cands R with
    | none => none
    | some R1 => dssdLoop S qf j mincov P n (subgroup_selection cands qf P S) R1

/-- dssd from the source: run the depth loop from the beam [{}] and the
empty retained list, dominance-prune and deduplicate the retained set, run
subgroup_selection once more with the same params P, and return the first
k results. -/
def dssd (S : Dataset) (qf : SubDesc → Dataset → Int) (j k mincov maxdepth : Int) (P : Params) :
    Option (List SubDesc) :=
  (dssdLoop S qf j mincov P maxdepth.toNat [[]] []).map fun R =>
    pyTake k (subgroup_selection
      (remove_duplicates (R.map fun r => apply_dominance_pruning r qf S)) qf P S)

/-- update_top_k together with the quality it evicts at a full step, used
to state the top-k retention invariants; the first component evolves by
update_top_k itself. -/
def step_tk (j : Int) (st : List (SubDesc × Int) × List Int) (cq : SubDesc × Int) :
    Option (List (SubDesc × Int) × List Int) :=
  match update_top_k st.1 j cq.1 cq.2 with
  | none => none
  | some R1 =>
    some (R1,
      if (st.1.length : Int) < j then st.2
      else
        match minSnd st.1 with
        | none => st.2
        | some m => if m < cq.2 then st.2 ++ [m] else st.2)

/-- A whole sequence of update_top_k insertions starting from the empty
retained list, recording the evicted qualities. -/
def run_tk (j : Int) (inserts : List (SubDesc × Int)) :
    Option (List (SubDesc × Int) × List Int) :=
  inserts.foldl (fun acc cq => acc.bind fun st => step_tk j st cq) (some ([], []))

/-- A quality function recomputing plain coverage, used for the concrete
evaluations. -/
def covQ (s : SubDesc) (d : Dataset) : Int :=
  (covCount d s : Int)

/-- A concrete dataset with columns a, b and one row where both hold. -/
def exD2 : Dataset :=
  ⟨["a", "b"], [fun _ => true]⟩

/-- A concrete dataset with columns a, b and three rows: both true, only a
true, only b true. -/
def exD3 : Dataset :=
  ⟨["a", "b"], [fun _ => true, fun c => c == "a", fun c => c == "b"]⟩

/-- The description a=True, b=True, written in that insertion order. -/
def dAB : SubDesc := [("a", true), ("b", true)]

/-- The description b=True, a=True: the same conditions as dAB inserted in
the opposite order. -/
def dBA : SubDesc := [("b", true), ("a", true)]

theorem matchesRow_of_subset {r : String → Bool} {s t : SubDesc}
    (hsub : ∀ p ∈ s, p ∈ t) (h : matchesRow r t = true) : matchesRow r s = true := by
  simp only [matchesRow, List.all_eq_true] at h ⊢
  exact fun p hp => h p (hsub p hp)

theorem covCount_le_of_subset (data : Dataset) {s t : SubDesc}
    (hsub : ∀ p ∈ s, p ∈ t) : covCount data t ≤ covCount data s :=
  (List.monotone_filter_right _ fun r hr => matchesRow_of_subset hsub hr).length_le

/-- Claim C6: adding one condition on a fresh column shrinks the matching
row set, so coverage cannot increase. -/
theorem coverage_antitone (data : Dataset) (s : SubDesc) (c : String) (v : Bool)
    (_hc : ∀ p ∈ s, p.1 ≠ c) :
    (∀ r ∈ data.rows, matchesRow r (s ++ [(c, v)]) = true → matchesRow r s = true) ∧
    covCount data (s ++ [(c, v)]) ≤ covCount data s := by
  constructor
  · exact fun r _ h => matchesRow_of_subset (fun p hp => mem_append_left _ hp) h
  · exact covCount_le_of_subset data fun p hp => mem_append_left _ hp

theorem coverage_antitone_witness :
    (∀ p ∈ [(("a" : String), true)], p.1 ≠ "b") ∧
    ((∀ r ∈ exD3.rows, matchesRow r ([("a", true)] ++ [("b", true)]) = true →
        matchesRow r [("a", true)] = true) ∧
     covCount exD3 ([("a", true)] ++ [("b", true)]) ≤ covCount exD3 [("a", true)]) :=
  ⟨by decide, coverage_antitone exD3 [("a", true)] "b" true (by decide)⟩

/-- Claim C4 counterexample: on the zero-condition description the coverage
query raises (pandas rejects the empty query expression) instead of
returning all N rows. -/
theorem dataQuery_empty_cex :
    dataQuery exD2 [] = none ∧ dataQuery exD2 [] ≠ some exD2.rows.length := by
  exact ⟨rfl, by decide⟩

/-- Claim C4 (amended): the coverage query raises on a description with
zero conditions; on any description with at least one condition it succeeds
and returns the count of rows satisfying all conditions.  Semantically the
empty conjunction does match every row, but the string-built query cannot
evaluate it. -/
theorem dataQuery_spec (data : Dataset) (s : SubDesc) :
    dataQuery data [] = none ∧
    (s ≠ [] → dataQuery data s = some (covCount data s)) ∧
    covCount data [] = data.rows.length := by
  refine ⟨rfl, fun hs => ?_, ?_⟩
  · simp [dataQuery, hs]
  · simp [covCount, matchesRow]

theorem dataQuery_spec_witness :
    dAB ≠ ([] : SubDesc) ∧
    (dataQuery exD2 [] = none ∧ dataQuery exD2 dAB = some (covCount exD2 dAB) ∧
     covCount exD2 [] = exD2.rows.length) :=
  ⟨by decide, (dataQuery_spec exD2 dAB).1, (dataQuery_spec exD2 dAB).2.1 (by decide),
    (dataQuery_spec exD2 dAB).2.2⟩

theorem removeDupGo_sublist (l : List SubDesc) : ∀ seen, removeDupGo seen l <+ l := by
  induction l with
  | nil => intro seen; simp [removeDupGo]
  | cons s rest ih =>
    intro seen
    by_cases h : s ∈ seen
    · simp only [removeDupGo, if_pos h]
      exact (ih seen).trans (sublist_cons_self s rest)
    · simp only [removeDupGo, if_neg h]
      exact (ih (s :: seen)).cons₂ s

theorem removeDupGo_not_mem_seen (l : List SubDesc) :
    ∀ seen s, s ∈ removeDupGo seen l → s ∉ seen := by
  induction l with
  | nil => intro seen s h; simp [removeDupGo] at h
  | cons t rest ih =>
    intro seen s h
    by_cases ht : t ∈ seen
    · rw [removeDupGo, if_pos ht] at h
      exact ih seen s h
    · rw [removeDupGo, if_neg ht] at h
      rcases mem_cons.mp h with rfl | h2
      · exact ht
      · intro hs
        exact (ih _ s h2) (mem_cons_of_mem t hs)

theorem removeDupGo_nodup (l : List SubDesc) : ∀ seen, (removeDupGo seen l).Nodup := by
  induction l with
  | nil => intro seen; simp [removeDupGo]
  | cons t rest ih =>
    intro seen
    by_cases ht : t ∈ seen
    · simpa only [removeDupGo, if_pos ht] using ih seen
    · simp only [removeDupGo, if_neg ht]
      refine nodup_cons.mpr ⟨fun hmem => ?_, ih (t :: seen)⟩
      exact removeDupGo_not_mem_seen rest (t :: seen) t hmem (mem_cons_self t seen)

theorem removeDupGo_mem_of (l : List SubDesc) :
    ∀ seen s, s ∈ l → s ∉ seen → s ∈ removeDupGo seen l := by
  induction l with
  | nil => intro seen s h; simp at h
  | cons t rest ih =>
    intro seen s hmem hns
    by_cases ht : t ∈ seen
    · rw [removeDupGo, if_pos ht]
      rcases mem_cons.mp hmem with rfl | h2
      · exact absurd ht hns
      · exact ih seen s h2 hns
    · rw [removeDupGo, if_neg ht]
      rcases mem_cons.mp hmem with rfl | h2
      · exact mem_cons_self s _
      · by_cases hst : s = t
        · subst hst; exact mem_cons_self s _
        · exact mem_cons_of_mem t
            (ih (t :: seen) s h2 fun hc => (mem_cons.mp hc).elim hst hns)

/-- Claim C3 counterexample: two descriptions with the same
(attribute, value) pairs inserted in different orders are both kept by
remove_duplicates, because the str(dict) encoding it compares is
insertion-order sensitive; the claim demanded that only the first be kept. -/
theorem remove_duplicates_order_cex :
    remove_duplicates [dAB, dBA] = [dAB, dBA] ∧ dAB ≠ dBA ∧ dAB.Perm dBA := by
  refine ⟨by decide, by decide, ?_⟩
  exact List.Perm.swap ("b", true) ("a", true) []

theorem removeDupGo_cons_eq (seen : List SubDesc) (t : SubDesc) (rest : List SubDesc) :
    removeDupGo seen (t :: rest) =
      if t ∈ seen then removeDupGo seen rest else t :: removeDupGo (t :: seen) rest := rfl

theorem removeDupGo_congr : ∀ (l seen seen2 : List SubDesc),
    (∀ x, x ∈ seen ↔ x ∈ seen2) → removeDupGo seen l = removeDupGo seen2 l := by
  intro l
  induction l with
  | nil => intro seen seen2 _; rfl
  | cons t rest ih =>
    intro seen seen2 h
    rw [removeDupGo_cons_eq, removeDupGo_cons_eq]
    by_cases ht : t ∈ seen
    · rw [if_pos ht, if_pos ((h t).mp ht)]
      exact ih seen seen2 h
    · rw [if_neg ht, if_neg (fun hc => ht ((h t).mpr hc))]
      congr 1
      refine ih (t :: seen) (t :: seen2) fun x => ?_
      simp only [mem_cons]
      exact or_congr Iff.rfl (h x)

theorem removeDupGo_cons_filter : ∀ (l seen : List SubDesc) (s : SubDesc),
    removeDupGo (s :: seen) l = removeDupGo seen (l.filter fun t => !(t == s)) := by
  intro l
  induction l with
  | nil => intro seen s; rfl
  | cons t rest ih =>
    intro seen s
    by_cases hts : t = s
    · subst hts
      have hf : ((t :: rest).filter fun x => !(x == t)) =
          rest.filter fun x => !(x == t) := by
        rw [filter_cons]
        simp
      rw [hf, removeDupGo_cons_eq, if_pos (mem_cons_self t seen)]
      exact ih seen t
    · have hf : ((t :: rest).filter fun x => !(x == s)) =
          t :: rest.filter fun x => !(x == s) := by
        rw [filter_cons]
        simp [hts]
      rw [hf]
      by_cases ht : t ∈ seen
      · rw [removeDupGo_cons_eq, if_pos (mem_cons_of_mem s ht),
          removeDupGo_cons_eq, if_pos ht]
        exact ih seen s
      · have htn : t ∉ s :: seen := by
          intro hc
          rcases mem_cons.mp hc with h1 | h1
          · exact hts h1
          · exact ht h1
        rw [removeDupGo_cons_eq, if_neg htn, removeDupGo_cons_eq, if_neg ht]
        congr 1
        rw [removeDupGo_congr rest (t :: s :: seen) (s :: t :: seen)
          (fun x => by simp only [mem_cons]; tauto)]
        exact ih (t :: seen) s

theorem remove_duplicates_eq_firstSeen (l : List SubDesc) :
    remove_duplicates l = firstSeenDedup l := by
  induction l using firstSeenDedup.induct with
  | case1 =>
    unfold firstSeenDedup
    rfl
  | case2 s rest ih =>
    unfold firstSeenDedup
    rw [← ih]
    show removeDupGo [] (s :: rest) = s :: remove_duplicates (rest.filter fun t => !(t == s))
    rw [removeDupGo_cons_eq, if_neg (not_mem_nil s), removeDupGo_cons_filter rest [] s]
    rfl

/-- Claim C3 (amended): remove_duplicates treats two descriptions as equal
iff their condition lists are equal as ordered lists (the str encoding),
not as sets: it equals the specification-side first-seen deduplication
(keep each description's first occurrence, drop every later ordered-equal
copy), hence returns a duplicate-free (under list equality) sublist of its
input, in first-seen order, containing exactly the input's descriptions;
same pairs in different insertion orders are not merged. -/
theorem remove_duplicates_spec (l : List SubDesc) :
    remove_duplicates l = firstSeenDedup l ∧
    remove_duplicates l <+ l ∧ (remove_duplicates l).Nodup ∧
    ∀ s, s ∈ remove_duplicates l ↔ s ∈ l := by
  refine ⟨remove_duplicates_eq_firstSeen l, removeDupGo_sublist l [],
    removeDupGo_nodup l [], fun s => ?_⟩
  exact ⟨fun h => (removeDupGo_sublist l []).subset h,
    fun h => removeDupGo_mem_of l [] s h (by simp)⟩

theorem minSnd_eq_none {R : List (SubDesc × Int)} : minSnd R = none ↔ R = [] := by
  cases R <;> simp [minSnd]

theorem minSnd_cons (p : SubDesc × Int) (rest : List (SubDesc × Int)) :
    minSnd (p :: rest) =
      some (match minSnd rest with | none => p.2 | some m => min p.2 m) := rfl

theorem minSnd_le {R : List (SubDesc × Int)} {m : Int} (h : minSnd R = some m) :
    ∀ p ∈ R, m ≤ p.2 := by
  induction R generalizing m with
  | nil => simp [minSnd] at h
  | cons p rest ih =>
    intro x hx
    rw [minSnd_cons] at h
    injection h with h
    cases hrest : minSnd rest with
    | none =>
      rw [hrest] at h
      have hnil : rest = [] := minSnd_eq_none.mp hrest
      subst hnil
      rcases mem_cons.mp hx with rfl | hx2
      · exact h ▸ le_refl _
      · simp at hx2
    | some m2 =>
      rw [hrest] at h
      rcases mem_cons.mp hx with rfl | hx2
      · exact h ▸ min_le_left _ _
      · exact le_trans (h ▸ min_le_right p.2 m2) (ih hrest x hx2)

theorem minSnd_attained {R : List (SubDesc × Int)} {m : Int} (h : minSnd R = some m) :
    ∃ p ∈ R, p.2 = m := by
  induction R generalizing m with
  | nil => simp [minSnd] at h
  | cons p rest ih =>
    rw [minSnd_cons] at h
    injection h with h
    cases hrest : minSnd rest with
    | none =>
      rw [hrest] at h
      exact ⟨p, mem_cons_self p rest, h⟩
    | some m2 =>
      rw [hrest] at h
      have h2 : min p.2 m2 = m := h
      rcases le_total p.2 m2 with hle | hle
      · exact ⟨p, mem_cons_self p rest, by rw [← h2, min_eq_left hle]⟩
      · obtain ⟨x, hx, hx2⟩ := ih hrest
        exact ⟨x, mem_cons_of_mem p hx, by rw [hx2, ← h2, min_eq_right hle]⟩

theorem removeFirstWithQ_sublist (m : Int) (R : List (SubDesc × Int)) :
    removeFirstWithQ m R <+ R := by
  induction R with
  | nil => simp [removeFirstWithQ]
  | cons p rest ih =>
    simp only [removeFirstWithQ]
    by_cases hp : p.2 = m
    · rw [if_pos hp]
      exact sublist_cons_self p rest
    · rw [if_neg hp]
      exact ih.cons₂ p

theorem removeFirstWithQ_split {R : List (SubDesc × Int)} {m : Int}
    (h : ∃ p ∈ R, p.2 = m) :
    ∃ l1 d l2, R = l1 ++ (d, m) :: l2 ∧ removeFirstWithQ m R = l1 ++ l2 := by
  induction R with
  | nil => simp at h
  | cons p rest ih =>
    by_cases hp : p.2 = m
    · refine ⟨[], p.1, rest, by simp [← hp], ?_⟩
      simp only [removeFirstWithQ]
      rw [if_pos hp]
      simp
    · obtain ⟨x, hx, hx2⟩ := h
      rcases mem_cons.mp hx with rfl | hx3
      · exact absurd hx2 hp
      · obtain ⟨l1, d, l2, heq, hrem⟩ := ih ⟨x, hx3, hx2⟩
        refine ⟨p :: l1, d, l2, by rw [heq]; rfl, ?_⟩
        simp only [removeFirstWithQ]
        rw [if_neg hp, hrem]
        rfl

theorem removeFirstWithQ_length {R : List (SubDesc × Int)} {m : Int}
    (h : ∃ p ∈ R, p.2 = m) :
    (removeFirstWithQ m R).length + 1 = R.length := by
  obtain ⟨l1, d, l2, heq, hrem⟩ := removeFirstWithQ_split h
  rw [hrem, heq]
  simp only [List.length_append, List.length_cons]
  omega

theorem update_top_k_some {j : Int} (hj : 1 ≤ j) (R : List (SubDesc × Int))
    (c : SubDesc) (q : Int) :
    ∃ R1, update_top_k R j c q = some R1 ∧
      (∀ p ∈ R1, p ∈ R ∨ p = (c, q)) ∧
      ((R.length : Int) ≤ j → (R1.length : Int) ≤ j) := by
  unfold update_top_k
  by_cases hlen : (R.length : Int) < j
  · rw [if_pos hlen]
    refine ⟨R ++ [(c, q)], rfl, ?_, fun _ => ?_⟩
    · intro p hp
      rcases mem_append.mp hp with h | h
      · exact Or.inl h
      · simp at h
        exact Or.inr h
    · simp only [List.length_append, List.length_cons, List.length_nil]
      push_cast
      omega
  · rw [if_neg hlen]
    cases hm : minSnd R with
    | none =>
      exfalso
      have hnil := minSnd_eq_none.mp hm
      subst hnil
      simp at hlen
      omega
    | some m =>
      by_cases hq : m < q
      · have hatt := minSnd_attained hm
        refine ⟨removeFirstWithQ m R ++ [(c, q)], by simp [hq], ?_, fun hle => ?_⟩
        · intro p hp
          rcases mem_append.mp hp with h | h
          · exact Or.inl ((removeFirstWithQ_sublist m R).subset h)
          · simp at h
            exact Or.inr h
        · have hL := removeFirstWithQ_length hatt
          simp only [List.length_append, List.length_cons, List.length_nil]
          push_cast
          push_cast at hle
          omega
      · exact ⟨R, by simp [hq], fun p hp => Or.inl hp, fun hle => hle⟩

theorem step_tk_preserves (j : Int) (hj : 1 ≤ j) (st : List (SubDesc × Int) × List Int)
    (cq : SubDesc × Int)
    (h1 : (st.1.length : Int) ≤ j)
    (h2 : st.2 ≠ [] → (st.1.length : Int) = j)
    (h3 : ∀ m ∈ st.2, ∀ p ∈ st.1, m ≤ p.2) :
    ∃ R1 evs1, step_tk j st cq = some (R1, evs1) ∧
      (R1.length : Int) ≤ j ∧ (evs1 ≠ [] → (R1.length : Int) = j) ∧
      ∀ m ∈ evs1, ∀ p ∈ R1, m ≤ p.2 := by
  unfold step_tk
  by_cases hlen : (st.1.length : Int) < j
  · have hupd : update_top_k st.1 j cq.1 cq.2 = some (st.1 ++ [(cq.1, cq.2)]) := by
      unfold update_top_k
      rw [if_pos hlen]
    rw [hupd]
    have hevs : st.2 = [] := by
      by_contra hne
      have := h2 hne
      omega
    refine ⟨st.1 ++ [(cq.1, cq.2)], st.2, by simp [hlen], ?_, ?_, ?_⟩
    · simp only [List.length_append, List.length_cons, List.length_nil]
      push_cast
      omega
    · intro h
      rw [hevs] at h
      exact absurd rfl h
    · intro m hm
      rw [hevs] at hm
      simp at hm
  · have hne1 : st.1 ≠ [] := by
      intro h0
      rw [h0] at hlen
      simp at hlen
      omega
    cases hm : minSnd st.1 with
    | none => exact absurd (minSnd_eq_none.mp hm) hne1
    | some m =>
      have hlenj : (st.1.length : Int) = j := le_antisymm h1 (not_lt.mp hlen)
      by_cases hq : m < cq.2
      · have hatt := minSnd_attained hm
        have hupd : update_top_k st.1 j cq.1 cq.2 =
            some (removeFirstWithQ m st.1 ++ [(cq.1, cq.2)]) := by
          unfold update_top_k
          rw [if_neg hlen, hm]
          simp [hq]
        rw [hupd]
        have hL := removeFirstWithQ_length hatt
        have hlen2 : ((removeFirstWithQ m st.1 ++ [(cq.1, cq.2)]).length : Int) = j := by
          simp only [List.length_append, List.length_cons, List.length_nil]
          push_cast
          push_cast at hlenj
          omega
        refine ⟨removeFirstWithQ m st.1 ++ [(cq.1, cq.2)], st.2 ++ [m],
          by simp [hlen, hm, hq], le_of_eq hlen2, fun _ => hlen2, ?_⟩
        intro m0 hm0 p hp
        rcases mem_append.mp hm0 with hm0 | hm0
        · rcases mem_append.mp hp with hp | hp
          · exact h3 m0 hm0 p ((removeFirstWithQ_sublist m st.1).subset hp)
          · simp only [mem_singleton] at hp
            subst hp
            obtain ⟨x, hx, hx2⟩ := hatt
            have hxle : m0 ≤ m := hx2 ▸ h3 m0 hm0 x hx
            exact le_of_lt (lt_of_le_of_lt hxle hq)
        · simp only [mem_singleton] at hm0
          rw [hm0]
          rcases mem_append.mp hp with hp | hp
          · exact minSnd_le hm p ((removeFirstWithQ_sublist m st.1).subset hp)
          · simp only [mem_singleton] at hp
            subst hp
            exact le_of_lt hq
      · have hupd : update_top_k st.1 j cq.1 cq.2 = some st.1 := by
          unfold update_top_k
          rw [if_neg hlen, hm]
          simp [hq]
        rw [hupd]
        exact ⟨st.1, st.2, by simp [hlen, hm, hq], h1, h2, h3⟩

theorem run_tk_invariant (j : Int) (hj : 1 ≤ j) :
    ∀ (inserts : List (SubDesc × Int)) (st : List (SubDesc × Int) × List Int),
      (st.1.length : Int) ≤ j →
      (st.2 ≠ [] → (st.1.length : Int) = j) →
      (∀ m ∈ st.2, ∀ p ∈ st.1, m ≤ p.2) →
      ∃ R evs,
        inserts.foldl (fun acc cq => acc.bind fun s => step_tk j s cq) (some st) =
          some (R, evs) ∧
        (R.length : Int) ≤ j ∧ (evs ≠ [] → (R.length : Int) = j) ∧
        ∀ m ∈ evs, ∀ p ∈ R, m ≤ p.2 := by
  intro inserts
  induction inserts with
  | nil =>
    intro st h1 h2 h3
    exact ⟨st.1, st.2, by simp, h1, h2, h3⟩
  | cons cq rest ih =>
    intro st h1 h2 h3
    obtain ⟨R1, evs1, hstep, i1, i2, i3⟩ := step_tk_preserves j hj st cq h1 h2 h3
    obtain ⟨R, evs, hfold, g1, g2, g3⟩ := ih (R1, evs1) i1 i2 i3
    refine ⟨R, evs, ?_, g1, g2, g3⟩
    rw [List.foldl_cons]
    simpa [hstep] using hfold

/-- Claim C5: starting from the empty retained list with j at least 1,
every sequence of update_top_k insertions succeeds and keeps at most j
entries, every retained quality stays at least every evicted quality, and
at a full list an insertion is accepted only when its quality strictly
exceeds the held minimum, in which case exactly one entry holding that
minimum is evicted. -/
theorem update_top_k_invariants (j : Int) (hj : 1 ≤ j) :
    (∀ inserts : List (SubDesc × Int), ∃ R evs,
        run_tk j inserts = some (R, evs) ∧ (R.length : Int) ≤ j ∧
        ∀ m ∈ evs, ∀ p ∈ R, m ≤ p.2) ∧
    (∀ (R : List (SubDesc × Int)) (c : SubDesc) (q m : Int),
        (R.length : Int) = j → minSnd R = some m →
        (¬ m < q → update_top_k R j c q = some R) ∧
        (m < q → ∃ l1 d l2, R = l1 ++ (d, m) :: l2 ∧
            update_top_k R j c q = some ((l1 ++ l2) ++ [(c, q)]))) := by
  constructor
  · intro inserts
    obtain ⟨R, evs, h, h1, _, h3⟩ :=
      run_tk_invariant j hj inserts ([], [])
        (by simp only [List.length_nil, Nat.cast_zero]; omega)
        (fun h => absurd rfl h)
        (by intro m hm; simp at hm)
    exact ⟨R, evs, h, h1, h3⟩
  · intro R c q m hlen hm
    have hnotlt : ¬ (R.length : Int) < j := by omega
    constructor
    · intro hq
      unfold update_top_k
      rw [if_neg hnotlt, hm]
      simp [hq]
    · intro hq
      obtain ⟨l1, d, l2, heq, hrem⟩ := removeFirstWithQ_split (minSnd_attained hm)
      refine ⟨l1, d, l2, heq, ?_⟩
      unfold update_top_k
      rw [if_neg hnotlt, hm]
      simp [hq, hrem]

theorem update_top_k_invariants_witness :
    (1 : Int) ≤ 1 ∧
    ((∀ inserts : List (SubDesc × Int), ∃ R evs,
        run_tk 1 inserts = some (R, evs) ∧ (R.length : Int) ≤ 1 ∧
        ∀ m ∈ evs, ∀ p ∈ R, m ≤ p.2) ∧
     (∀ (R : List (SubDesc × Int)) (c : SubDesc) (q m : Int),
        (R.length : Int) = 1 → minSnd R = some m →
        (¬ m < q → update_top_k R 1 c q = some R) ∧
        (m < q → ∃ l1 d l2, R = l1 ++ (d, m) :: l2 ∧
            update_top_k R 1 c q = some ((l1 ++ l2) ++ [(c, q)])))) :=
  ⟨by decide, update_top_k_invariants 1 (by decide)⟩

/-- Claim C10: with the retained list empty and j nonpositive, update_top_k
reaches min() of an empty sequence and raises; consequently dssd called
with such a j fails mid-search as soon as one refinement meets mincov,
instead of validating the configuration at entry or returning a result. -/
theorem dssd_nonpositive_j_fails (S : Dataset) (qf : SubDesc → Dataset → Int)
    (j k mincov maxdepth : Int) (P : Params) (c : SubDesc) (q : Int)
    (hj : j ≤ 0) (hd : 1 ≤ maxdepth) (hne : generate_refinements [] mincov S ≠ []) :
    update_top_k [] j c q = none ∧ dssd S qf j k mincov maxdepth P = none := by
  have hupd : ∀ (c0 : SubDesc) (q0 : Int), update_top_k [] j c0 q0 = none := by
    intro c0 q0
    unfold update_top_k
    rw [if_neg (by simp only [List.length_nil, Nat.cast_zero]; omega)]
    rfl
  refine ⟨hupd c q, ?_⟩
  unfold dssd
  obtain ⟨n, hn⟩ : ∃ n, maxdepth.toNat = n + 1 :=
    ⟨maxdepth.toNat - 1, by omega⟩
  rw [hn]
  have hcands : dssdCands S mincov [[]] = generate_refinements [] mincov S := by
    simp [dssdCands]
  cases hgen : generate_refinements [] mincov S with
  | nil => exact absurd hgen hne
  | cons c0 cs =>
    have hua : updateAll j qf S (c0 :: cs) [] = none := by
      simp only [updateAll]
      rw [hupd c0 (qf c0 S)]
    simp only [dssdLoop, hcands, hgen, hua]
    rfl

theorem dssd_nonpositive_j_fails_witness :
    (0 : Int) ≤ 0 ∧ (1 : Int) ≤ 1 ∧ generate_refinements [] 1 exD2 ≠ [] ∧
    (update_top_k [] 0 [] 0 = none ∧ dssd exD2 covQ 0 5 1 1 ⟨some 1⟩ = none) :=
  ⟨by decide, by decide, by decide,
    dssd_nonpositive_j_fails exD2 covQ 0 5 1 1 ⟨some 1⟩ [] 0 (by decide) (by decide)
      (by decide)⟩

theorem insertDesc_perm (p : SubDesc × Int) (l : List (SubDesc × Int)) :
    insertDesc p l ~ p :: l := by
  induction l with
  | nil => exact Perm.refl _
  | cons q rest ih =>
    simp only [insertDesc]
    by_cases h : p.2 < q.2
    · rw [if_pos h]
      exact (ih.cons q).trans (Perm.swap p q rest)
    · rw [if_neg h]

theorem sortDesc_perm (l : List (SubDesc × Int)) : sortDesc l ~ l := by
  induction l with
  | nil => exact Perm.refl _
  | cons p rest ih =>
    simp only [sortDesc]
    exact (insertDesc_perm p (sortDesc rest)).trans (ih.cons p)

theorem mem_insertDesc {x p : SubDesc × Int} {l : List (SubDesc × Int)} :
    x ∈ insertDesc p l ↔ x = p ∨ x ∈ l := by
  rw [(insertDesc_perm p l).mem_iff, mem_cons]

theorem insertDesc_pairwise (p : SubDesc × Int) (l : List (SubDesc × Int))
    (h : l.Pairwise (fun a b => b.2 ≤ a.2)) :
    (insertDesc p l).Pairwise (fun a b => b.2 ≤ a.2) := by
  induction l with
  | nil => simp [insertDesc]
  | cons q rest ih =>
    rw [pairwise_cons] at h
    obtain ⟨hq, hrest⟩ := h
    simp only [insertDesc]
    by_cases hpq : p.2 < q.2
    · rw [if_pos hpq]
      refine pairwise_cons.mpr ⟨?_, ih hrest⟩
      intro x hx
      rcases mem_insertDesc.mp hx with rfl | hx2
      · exact le_of_lt hpq
      · exact hq x hx2
    · rw [if_neg hpq]
      refine pairwise_cons.mpr ⟨?_, pairwise_cons.mpr ⟨hq, hrest⟩⟩
      intro x hx
      rcases mem_cons.mp hx with rfl | hx2
      · exact not_lt.mp hpq
      · exact le_trans (hq x hx2) (not_lt.mp hpq)

theorem sortDesc_pairwise (l : List (SubDesc × Int)) :
    (sortDesc l).Pairwise (fun a b => b.2 ≤ a.2) := by
  induction l with
  | nil => simp [sortDesc]
  | cons p rest ih =>
    simp only [sortDesc]
    exact insertDesc_pairwise p _ ih

theorem filter_insertDesc (p : SubDesc × Int) (l : List (SubDesc × Int)) (q : Int) :
    (insertDesc p l).filter (fun x => x.2 == q) =
      if p.2 == q then p :: l.filter (fun x => x.2 == q)
      else l.filter (fun x => x.2 == q) := by
  induction l with
  | nil =>
    simp only [insertDesc, filter_cons, filter_nil]
  | cons r rest ih =>
    simp only [insertDesc]
    by_cases hpr : p.2 < r.2
    · rw [if_pos hpr]
      by_cases hpq : (p.2 == q) = true
      · have hp2 : p.2 = q := beq_iff_eq.mp hpq
        have hrq : (r.2 == q) = false := by
          rw [beq_eq_false_iff_ne]
          omega
        simp only [filter_cons, hrq, hpq, ih, if_true, if_false, Bool.false_eq_true]
      · have hpq2 : (p.2 == q) = false := by
          simpa using hpq
        simp only [filter_cons, hpq2, ih, if_false, Bool.false_eq_true]
    · rw [if_neg hpr]
      simp only [filter_cons]

theorem filter_sortDesc (l : List (SubDesc × Int)) (q : Int) :
    (sortDesc l).filter (fun x => x.2 == q) = l.filter (fun x => x.2 == q) := by
  induction l with
  | nil => rfl
  | cons p rest ih =>
    simp only [sortDesc, filter_insertDesc, ih, filter_cons]

theorem pyTake_of_nonneg {k : Int} (h : 0 ≤ k) (l : List α) :
    pyTake k l = l.take k.toNat := by
  unfold pyTake
  rw [if_pos h]

theorem pyTake_sublist (k : Int) (l : List α) : pyTake k l <+ l := by
  unfold pyTake
  split <;> exact take_sublist _ _

theorem pyTake_subset {k : Int} {l : List α} : ∀ x ∈ pyTake k l, x ∈ l :=
  fun x hx => (pyTake_sublist k l).subset hx

theorem mem_subgroup_selection {cs : List SubDesc} {qf : SubDesc → Dataset → Int}
    {P : Params} {data : Dataset} {x : SubDesc}
    (hx : x ∈ subgroup_selection cs qf P data) : x ∈ cs := by
  simp only [subgroup_selection, mem_map] at hx
  obtain ⟨pr, hpr, rfl⟩ := hx
  have h1 : pr ∈ sortDesc (cs.map fun c => (c, qf c data)) := pyTake_subset pr hpr
  have h2 : pr ∈ cs.map fun c => (c, qf c data) := (sortDesc_perm _).mem_iff.mp h1
  obtain ⟨c, hc, rfl⟩ := mem_map.mp h2
  exact hc

theorem snd_of_mem_selected {cs : List SubDesc} {qf : SubDesc → Dataset → Int}
    {data : Dataset} {pr : SubDesc × Int}
    (h : pr ∈ cs.map fun c => (c, qf c data)) : pr.2 = qf pr.1 data := by
  obtain ⟨c, _, rfl⟩ := mem_map.mp h
  rfl

theorem subgroup_selection_length (cs : List SubDesc) (qf : SubDesc → Dataset → Int)
    (data : Dataset) {bw : Int} (hbw : 0 ≤ bw) :
    ((subgroup_selection cs qf ⟨some bw⟩ data).length : Int) = min bw (cs.length : Int) := by
  simp only [subgroup_selection, Option.getD_some]
  rw [pyTake_of_nonneg hbw, length_map, length_take,
    (sortDesc_perm (cs.map fun c => (c, qf c data))).length_eq, length_map,
    Nat.cast_min, Int.toNat_of_nonneg hbw]

theorem subgroup_selection_sorted (cs : List SubDesc) (qf : SubDesc → Dataset → Int)
    (data : Dataset) (P : Params) :
    (subgroup_selection cs qf P data).Pairwise (fun a b => qf b data ≤ qf a data) := by
  simp only [subgroup_selection]
  rw [pairwise_map]
  have hsorted := sortDesc_pairwise (cs.map fun c => (c, qf c data))
  have htake : (pyTake (P.beam_width.getD ((cs.map fun c => (c, qf c data)).length : Int))
      (sortDesc (cs.map fun c => (c, qf c data)))).Pairwise (fun a b => b.2 ≤ a.2) :=
    hsorted.sublist (pyTake_sublist _ _)
  refine htake.imp_of_mem ?_
  intro a b ha hb hr
  have ha2 := snd_of_mem_selected ((sortDesc_perm _).mem_iff.mp (pyTake_subset a ha))
  have hb2 := snd_of_mem_selected ((sortDesc_perm _).mem_iff.mp (pyTake_subset b hb))
  rw [ha2, hb2] at hr
  exact hr

theorem subgroup_selection_stable (cs : List SubDesc) (qf : SubDesc → Dataset → Int)
    (data : Dataset) (P : Params) (q : Int) :
    (subgroup_selection cs qf P data).filter (fun c => qf c data == q) <+
      cs.filter (fun c => qf c data == q) := by
  simp only [subgroup_selection]
  have e1 : ((pyTake (P.beam_width.getD ((cs.map fun c => (c, qf c data)).length : Int))
        (sortDesc (cs.map fun c => (c, qf c data)))).map Prod.fst).filter
        (fun c => qf c data == q) =
      ((pyTake (P.beam_width.getD ((cs.map fun c => (c, qf c data)).length : Int))
        (sortDesc (cs.map fun c => (c, qf c data)))).filter (fun x => x.2 == q)).map
        Prod.fst := by
    rw [filter_map]
    congr 1
    apply filter_congr
    intro x hx
    have hx2 := snd_of_mem_selected ((sortDesc_perm _).mem_iff.mp (pyTake_subset x hx))
    simp only [Function.comp_apply, hx2]
  have e3 : ((sortDesc (cs.map fun c => (c, qf c data))).filter
        (fun x => x.2 == q)).map Prod.fst =
      cs.filter (fun c => qf c data == q) := by
    rw [filter_sortDesc]
    have e4 : (cs.map fun c => (c, qf c data)).filter (fun x => x.2 == q) =
        (cs.map fun c => (c, qf c data)).filter
          ((fun c => qf c data == q) ∘ Prod.fst) := by
      apply filter_congr
      intro x hx
      simp only [Function.comp_apply, snd_of_mem_selected hx]
    rw [e4, ← filter_map, map_map,
      show (Prod.fst ∘ fun c : SubDesc => (c, qf c data)) = id from rfl, map_id]
  rw [e1, ← e3]
  exact (((pyTake_sublist _ _).filter _).map _)

/-- Claim C9 counterexample: a params mapping may hold a negative
beam_width, and then Python slicing keeps all but the last candidates: on
two candidates with beam_width -1 the selection returns 1 description,
while min(beam_width, number of candidates) is -1. -/
theorem subgroup_selection_negative_cex :
    ((subgroup_selection [[("a", true)], [("b", true)]] covQ ⟨some (-1)⟩ exD2).length : Int)
        = 1 ∧
    min (-1 : Int) 2 ≠ 1 := by
  constructor
  · decide
  · decide

/-- Claim C9 (amended): for every candidate list and every params mapping
containing a nonnegative beam_width, subgroup_selection returns exactly
min(beam_width, number of candidates) descriptions, in descending order of
freshly recomputed quality, with equal-quality candidates kept in their
input order. -/
theorem subgroup_selection_spec (cs : List SubDesc) (qf : SubDesc → Dataset → Int)
    (data : Dataset) (bw : Int) (hbw : 0 ≤ bw) :
    ((subgroup_selection cs qf ⟨some bw⟩ data).length : Int) = min bw (cs.length : Int) ∧
    (subgroup_selection cs qf ⟨some bw⟩ data).Pairwise (fun a b => qf b data ≤ qf a data) ∧
    ∀ q : Int, (subgroup_selection cs qf ⟨some bw⟩ data).filter (fun c => qf c data == q) <+
      cs.filter (fun c => qf c data == q) :=
  ⟨subgroup_selection_length cs qf data hbw, subgroup_selection_sorted cs qf data _,
   fun q => subgroup_selection_stable cs qf data _ q⟩

theorem subgroup_selection_spec_witness :
    (0 : Int) ≤ 1 ∧
    (((subgroup_selection [dAB] covQ ⟨some 1⟩ exD2).length : Int) = min 1 ([dAB].length : Int) ∧
     (subgroup_selection [dAB] covQ ⟨some 1⟩ exD2).Pairwise
        (fun a b => covQ b exD2 ≤ covQ a exD2) ∧
     ∀ q : Int, (subgroup_selection [dAB] covQ ⟨some 1⟩ exD2).filter
          (fun c => covQ c exD2 == q) <+
        [dAB].filter (fun c => covQ c exD2 == q)) :=
  ⟨by decide, subgroup_selection_spec [dAB] covQ exD2 1 (by decide)⟩

theorem pruneLoop_subset (qf : SubDesc → Dataset → Int) (data : Dataset) :
    ∀ (keys : List String) (pruned : SubDesc) (curq : Int),
      ∀ x ∈ pruneLoop qf data keys pruned curq, x ∈ pruned := by
  intro keys
  induction keys with
  | nil =>
    intro pruned curq x hx
    simpa [pruneLoop] using hx
  | cons cond rest ih =>
    intro pruned curq x hx
    simp only [pruneLoop] at hx
    by_cases hacc : curq ≤ qf (pruned.filter fun p => !(p.1 == cond)) data
    · rw [if_pos hacc] at hx
      dsimp only at hx
      by_cases hone : ((pruned.filter fun p => !(p.1 == cond)).length == 1) = true
      · rw [if_pos hone] at hx
        exact mem_of_mem_filter hx
      · rw [if_neg hone] at hx
        exact mem_of_mem_filter (ih _ _ x hx)
    · rw [if_neg hacc] at hx
      dsimp only at hx
      by_cases hone : (pruned.length == 1) = true
      · rw [if_pos hone] at hx
        exact hx
      · rw [if_neg hone] at hx
        exact ih _ _ x hx

theorem pruneLoop_quality (qf : SubDesc → Dataset → Int) (data : Dataset) :
    ∀ (keys : List String) (pruned : SubDesc) (curq : Int),
      curq = qf pruned data →
      curq ≤ qf (pruneLoop qf data keys pruned curq) data := by
  intro keys
  induction keys with
  | nil =>
    intro pruned curq hq
    simp only [pruneLoop]
    exact le_of_eq hq
  | cons cond rest ih =>
    intro pruned curq hq
    simp only [pruneLoop]
    by_cases hacc : curq ≤ qf (pruned.filter fun p => !(p.1 == cond)) data
    · rw [if_pos hacc]
      dsimp only
      by_cases hone : ((pruned.filter fun p => !(p.1 == cond)).length == 1) = true
      · rw [if_pos hone]
        exact hacc
      · rw [if_neg hone]
        exact le_trans hacc (ih _ _ rfl)
    · rw [if_neg hacc]
      dsimp only
      by_cases hone : (pruned.length == 1) = true
      · rw [if_pos hone]
        exact le_of_eq hq
      · rw [if_neg hone]
        exact ih pruned curq hq

/-- Claim C7: when the stored quality equals the quality function's value
on the description, dominance pruning returns a description whose
conditions form a subset of the original's and whose recomputed quality is
at least the original's. -/
theorem dominance_pruning_quality (qf : SubDesc → Dataset → Int) (data : Dataset)
    (s : SubDesc) (q : Int) (hq : q = qf s data) :
    (∀ p ∈ apply_dominance_pruning (s, q) qf data, p ∈ s) ∧
    qf s data ≤ qf (apply_dominance_pruning (s, q) qf data) data := by
  unfold apply_dominance_pruning
  dsimp only
  by_cases hone : (s.length == 1) = true
  · rw [if_pos hone]
    exact ⟨fun p hp => hp, le_refl _⟩
  · rw [if_neg hone]
    constructor
    · exact fun p hp => pruneLoop_subset qf data _ s q p hp
    · rw [← hq]
      exact pruneLoop_quality qf data (s.map Prod.fst) s q hq

theorem dominance_pruning_quality_witness :
    (1 : Int) = covQ dAB exD2 ∧
    ((∀ p ∈ apply_dominance_pruning (dAB, 1) covQ exD2, p ∈ dAB) ∧
     covQ dAB exD2 ≤ covQ (apply_dominance_pruning (dAB, 1) covQ exD2) exD2) :=
  ⟨by decide, dominance_pruning_quality covQ exD2 dAB 1 (by decide)⟩

theorem filter_ne_key_length (cond : String) {l : SubDesc}
    (hnd : (l.map Prod.fst).Nodup) :
    l.length ≤ (l.filter fun p => !(p.1 == cond)).length + 1 := by
  induction l with
  | nil => simp
  | cons p rest ih =>
    rw [map_cons, nodup_cons] at hnd
    obtain ⟨hp, hrest⟩ := hnd
    by_cases hc : (p.1 == cond) = true
    · have hpc : p.1 = cond := beq_iff_eq.mp hc
      have hall : (rest.filter fun x => !(x.1 == cond)) = rest := by
        apply filter_eq_self.mpr
        intro x hx
        have hxc : x.1 ≠ cond := by
          intro hxeq
          exact hp (by rw [hpc, ← hxeq]; exact mem_map_of_mem Prod.fst hx)
        simp [hxc]
      rw [filter_cons]
      simp only [hc, Bool.not_true, Bool.false_eq_true, if_false, hall,
        List.length_cons]
      omega
    · rw [filter_cons]
      have hc2 : (!(p.1 == cond)) = true := by
        simp only [Bool.not_eq_true']
        simpa using hc
      simp only [hc2, if_true, List.length_cons]
      have := ih hrest
      omega

theorem pruneLoop_length_pos (qf : SubDesc → Dataset → Int) (data : Dataset) :
    ∀ (keys : List String) (pruned : SubDesc) (curq : Int),
      (pruned.map Prod.fst).Nodup → 2 ≤ pruned.length →
      1 ≤ (pruneLoop qf data keys pruned curq).length := by
  intro keys
  induction keys with
  | nil =>
    intro pruned curq _ h2
    simp only [pruneLoop]
    omega
  | cons cond rest ih =>
    intro pruned curq hnd h2
    simp only [pruneLoop]
    by_cases hacc : curq ≤ qf (pruned.filter fun p => !(p.1 == cond)) data
    · rw [if_pos hacc]
      dsimp only
      have htl : 1 ≤ (pruned.filter fun p => !(p.1 == cond)).length := by
        have := filter_ne_key_length cond hnd
        omega
      by_cases hone : ((pruned.filter fun p => !(p.1 == cond)).length == 1) = true
      · rw [if_pos hone]
        exact htl
      · rw [if_neg hone]
        apply ih
        · exact ((filter_sublist _).map Prod.fst).nodup hnd
        · have hne1 : (pruned.filter fun p => !(p.1 == cond)).length ≠ 1 := by
            simpa using hone
          omega
    · rw [if_neg hacc]
      dsimp only
      by_cases hone : (pruned.length == 1) = true
      · rw [if_pos hone]
        have h1 : pruned.length = 1 := by simpa using hone
        omega
      · rw [if_neg hone]
        exact ih pruned curq hnd h2

/-- Claim C8 counterexample: called on an input pair whose description has
zero conditions, apply_dominance_pruning returns a description with zero
conditions (the one-condition guard tests length == 1, so the empty dict
falls through and the loop body never runs), contradicting the claim that
it never returns a description with zero conditions for every input. -/
theorem dominance_pruning_empty_cex :
    apply_dominance_pruning (([] : SubDesc), 0) covQ exD2 = [] ∧
    (apply_dominance_pruning (([] : SubDesc), 0) covQ exD2).length = 0 := by
  exact ⟨rfl, rfl⟩

/-- Claim C8 (amended): for every input whose description has pairwise
distinct attribute names (as every Python dict does) and at least one
condition, apply_dominance_pruning returns a description with at least one
condition; a one-condition input is returned unchanged, and removal stops
as soon as the working description is reduced to a single condition. -/
theorem dominance_pruning_floor (qf : SubDesc → Dataset → Int) (data : Dataset)
    (s : SubDesc) (q : Int)
    (hnd : (s.map Prod.fst).Nodup) (hne : 1 ≤ s.length) :
    1 ≤ (apply_dominance_pruning (s, q) qf data).length ∧
    (s.length = 1 → apply_dominance_pruning (s, q) qf data = s) := by
  unfold apply_dominance_pruning
  dsimp only
  by_cases hone : (s.length == 1) = true
  · rw [if_pos hone]
    have h1 : s.length = 1 := by simpa using hone
    exact ⟨by omega, fun _ => rfl⟩
  · rw [if_neg hone]
    have hlen2 : 2 ≤ s.length := by
      have hne1 : s.length ≠ 1 := by simpa using hone
      omega
    refine ⟨pruneLoop_length_pos qf data _ s q hnd hlen2, fun h1 => ?_⟩
    exact absurd (by simp [h1]) hone

theorem dominance_pruning_floor_witness :
    (dAB.map Prod.fst).Nodup ∧ 1 ≤ dAB.length ∧
    (1 ≤ (apply_dominance_pruning (dAB, 0) covQ exD2).length ∧
     (dAB.length = 1 → apply_dominance_pruning (dAB, 0) covQ exD2 = dAB)) :=
  ⟨by decide, by decide, dominance_pruning_floor covQ exD2 dAB 0 (by decide) (by decide)⟩

theorem mem_generate_refinements {sg s : SubDesc} {mincov : Int} {data : Dataset}
    (h : s ∈ generate_refinements sg mincov data) :
    mincov ≤ (covCount data s : Int) := by
  simp only [generate_refinements, mem_flatMap] at h
  obtain ⟨col, _, h⟩ := h
  by_cases hc : (sg.any fun p => p.1 == col) = true
  · rw [if_pos hc] at h
    simp at h
  · rw [if_neg hc] at h
    simp only [mem_filterMap] at h
    obtain ⟨v, _, hv⟩ := h
    by_cases hcov : mincov ≤ (covCount data (sg ++ [(col, v)]) : Int)
    · rw [if_pos hcov] at hv
      injection hv with hv
      rw [← hv]
      exact hcov
    · rw [if_neg hcov] at hv
      cases hv

theorem updateAll_some {j : Int} (hj : 1 ≤ j) (qf : SubDesc → Dataset → Int) (S : Dataset)
    (Q : SubDesc → Prop) :
    ∀ (cands : List SubDesc) (R : List (SubDesc × Int)),
      (∀ p ∈ R, Q p.1) → (∀ c ∈ cands, Q c) →
      ∃ R1, updateAll j qf S cands R = some R1 ∧ ∀ p ∈ R1, Q p.1 := by
  intro cands
  induction cands with
  | nil =>
    intro R hR _
    exact ⟨R, rfl, hR⟩
  | cons c cs ih =>
    intro R hR hc
    obtain ⟨R1, hupd, hmem, _⟩ := update_top_k_some hj R c (qf c S)
    have hR1 : ∀ p ∈ R1, Q p.1 := by
      intro p hp
      rcases hmem p hp with h | h
      · exact hR p h
      · rw [h]
        exact hc c (mem_cons_self c cs)
    obtain ⟨R2, hua, hQ⟩ := ih R1 hR1 (fun x hx => hc x (mem_cons_of_mem c hx))
    refine ⟨R2, ?_, hQ⟩
    simp only [updateAll, hupd]
    exact hua

theorem dssdLoop_some {j mincov : Int} (hj : 1 ≤ j) (qf : SubDesc → Dataset → Int)
    (S : Dataset) (P : Params) :
    ∀ (n : Nat) (beam : List SubDesc) (R : List (SubDesc × Int)),
      (∀ p ∈ R, mincov ≤ (covCount S p.1 : Int)) →
      ∃ R1, dssdLoop S qf j mincov P n beam R = some R1 ∧
        ∀ p ∈ R1, mincov ≤ (covCount S p.1 : Int) := by
  intro n
  induction n with
  | zero =>
    intro beam R hR
    exact ⟨R, rfl, hR⟩
  | succ n ih =>
    intro beam R hR
    have hcands : ∀ c ∈ dssdCands S mincov beam, mincov ≤ (covCount S c : Int) := by
      intro c hc
      simp only [dssdCands, mem_flatMap] at hc
      obtain ⟨b, _, hc⟩ := hc
      exact mem_generate_refinements hc
    obtain ⟨R1, hua, hQ⟩ :=
      updateAll_some hj qf S (fun c => mincov ≤ (covCount S c : Int))
        (dssdCands S mincov beam) R hR hcands
    obtain ⟨R2, hloop, hQ2⟩ :=
      ih (subgroup_selection (dssdCands S mincov beam) qf P S) R1 hQ
    refine ⟨R2, ?_, hQ2⟩
    simp only [dssdLoop, hua]
    exact hloop

theorem apply_dominance_pruning_subset (qf : SubDesc → Dataset → Int) (data : Dataset)
    (r : SubDesc × Int) :
    ∀ p ∈ apply_dominance_pruning r qf data, p ∈ r.1 := by
  unfold apply_dominance_pruning
  by_cases hone : (r.1.length == 1) = true
  · rw [if_pos hone]
    exact fun p hp => hp
  · rw [if_neg hone]
    exact fun p hp => pruneLoop_subset qf data _ r.1 r.2 p hp

theorem pyTake_length_le {k : Int} (hk : 0 ≤ k) (l : List α) :
    ((pyTake k l).length : Int) ≤ k := by
  rw [pyTake_of_nonneg hk, length_take]
  calc ((min k.toNat l.length : Nat) : Int) ≤ (k.toNat : Int) := by
        exact_mod_cast min_le_left _ _
    _ = k := Int.toNat_of_nonneg hk

/-- Claim C1: for parameters j, k, mincov at least 1, dssd succeeds and
returns at most k descriptions, each covering at least mincov rows: every
retained candidate passed the mincov filter of generate_refinements, and
dominance pruning only removes conditions, which cannot decrease
coverage. -/
theorem dssd_output_bound (S : Dataset) (qf : SubDesc → Dataset → Int)
    (j k mincov maxdepth : Int) (P : Params)
    (hj : 1 ≤ j) (hk : 1 ≤ k) (hm : 1 ≤ mincov) :
    ∃ out, dssd S qf j k mincov maxdepth P = some out ∧
      (out.length : Int) ≤ k ∧
      ∀ s ∈ out, mincov ≤ (covCount S s : Int) := by
  obtain ⟨R, hloop, hR⟩ := dssdLoop_some hj qf S P maxdepth.toNat [[]] []
    (by intro p hp; simp at hp)
  refine ⟨pyTake k (subgroup_selection
      (remove_duplicates (R.map fun r => apply_dominance_pruning r qf S)) qf P S),
    ?_, ?_, ?_⟩
  · unfold dssd
    rw [hloop]
    rfl
  · exact pyTake_length_le (by omega) _
  · intro s hs
    have h1 : s ∈ subgroup_selection
        (remove_duplicates (R.map fun r => apply_dominance_pruning r qf S)) qf P S :=
      pyTake_subset s hs
    have h2 : s ∈ remove_duplicates (R.map fun r => apply_dominance_pruning r qf S) :=
      mem_subgroup_selection h1
    have h3 : s ∈ R.map fun r => apply_dominance_pruning r qf S :=
      (removeDupGo_sublist _ []).subset h2
    obtain ⟨r, hr, rfl⟩ := mem_map.mp h3
    have hcov : covCount S r.1 ≤ covCount S (apply_dominance_pruning r qf S) :=
      covCount_le_of_subset S (apply_dominance_pruning_subset qf S r)
    have hrq := hR r hr
    calc mincov ≤ (covCount S r.1 : Int) := hrq
      _ ≤ (covCount S (apply_dominance_pruning r qf S) : Int) := by exact_mod_cast hcov

theorem dssd_output_bound_witness :
    (1 : Int) ≤ 1 ∧ (1 : Int) ≤ 1 ∧ (1 : Int) ≤ 1 ∧
    (∃ out, dssd exD2 covQ 1 1 1 1 ⟨some 1⟩ = some out ∧
      (out.length : Int) ≤ 1 ∧
      ∀ s ∈ out, (1 : Int) ≤ (covCount exD2 s : Int)) :=
  ⟨by decide, by decide, by decide,
    dssd_output_bound exD2 covQ 1 1 1 1 ⟨some 1⟩ (by decide) (by decide) (by decide)⟩

/-- Claim C2 counterexample: with k = 2 and beam_width = 1 the pruned and
deduplicated retained set holds 2 descriptions, yet dssd returns only 1
description: the final selector is called with the params beam_width, not
with k, so a beam_width below k caps the output below k. -/
theorem dssd_final_width_cex :
    (dssd exD2 covQ 10 2 1 1 ⟨some 1⟩).map (fun l => l.length) = some 1 ∧
    dssdLoop exD2 covQ 10 1 ⟨some 1⟩ 1 [[]] [] =
      some [([("a", true)], 1), ([("b", true)], 1)] ∧
    (remove_duplicates
      (([([("a", true)], (1 : Int)), ([("b", true)], 1)]).map
        (fun r => apply_dominance_pruning r covQ exD2))).length = 2 := by
  refine ⟨?_, ?_, ?_⟩ <;> decide

/-- Claim C2 (amended): the final selection applies subgroup_selection with
the params' beam_width, not with k, and the result is then truncated to k:
the output holds min(k, beam_width, size of the pruned deduplicated
retained set) descriptions, so with beam_width below k the output falls
short of k even when the deduplicated set holds at least k entries. -/
theorem dssd_final_selection_widths (S : Dataset) (qf : SubDesc → Dataset → Int)
    (j k mincov maxdepth bw : Int)
    (hj : 1 ≤ j) (hk : 0 ≤ k) (hbw : 0 ≤ bw) :
    ∃ R D, dssdLoop S qf j mincov ⟨some bw⟩ maxdepth.toNat [[]] [] = some R ∧
      D = remove_duplicates (R.map fun r => apply_dominance_pruning r qf S) ∧
      dssd S qf j k mincov maxdepth ⟨some bw⟩ =
        some (pyTake k (subgroup_selection D qf ⟨some bw⟩ S)) ∧
      ((pyTake k (subgroup_selection D qf ⟨some bw⟩ S)).length : Int) =
        min k (min bw (D.length : Int)) := by
  obtain ⟨R, hloop, _⟩ := dssdLoop_some hj qf S ⟨some bw⟩ maxdepth.toNat [[]] []
    (by intro p hp; simp at hp)
  refine ⟨R, _, hloop, rfl, ?_, ?_⟩
  · unfold dssd
    rw [hloop]
    rfl
  · rw [pyTake_of_nonneg hk, length_take]
    have hsel := subgroup_selection_length
      (remove_duplicates (R.map fun r => apply_dominance_pruning r qf S)) qf S hbw
    rw [Nat.cast_min, Int.toNat_of_nonneg hk, hsel]

theorem dssd_final_selection_widths_witness :
    (1 : Int) ≤ 1 ∧ (0 : Int) ≤ 2 ∧ (0 : Int) ≤ 1 ∧
    (∃ R D, dssdLoop exD2 covQ 1 1 ⟨some 1⟩ (1 : Int).toNat [[]] [] = some R ∧
      D = remove_duplicates (R.map fun r => apply_dominance_pruning r covQ exD2) ∧
      dssd exD2 covQ 1 2 1 1 ⟨some 1⟩ =
        some (pyTake 2 (subgroup_selection D covQ ⟨some 1⟩ exD2)) ∧
      ((pyTake 2 (subgroup_selection D covQ ⟨some 1⟩ exD2)).length : Int) =
        min 2 (min 1 (D.length : Int))) :=
  ⟨by decide, by decide, by decide,
    dssd_final_selection_widths exD2 covQ 1 2 1 1 1 (by decide) (by decide) (by decide)⟩
